import Mathlib

/-!
Verification development for the 3D flow-field particle system in
src/main.js (the variant with spatial-hash repulsion and the cylindrical
attractor).  The numeric code is embedded shallowly over the exact
rationals: every JavaScript arithmetic expression is translated term by
term, machine `Math.floor`/bit-mask operations become `Int.floor` and
modular arithmetic, and the transcendental `Math` primitives used by the
particle integrator (`sin`, `cos`, `atan2`, `sqrt`, `pow`, `PI`) are
collected in an explicit record of rational functions, over which the
statements quantify.
-/

namespace FlowField3D

/-- Linear interpolation, from `PerlinNoise.lerp`: `a + t * (b - a)`. -/
def lerp (t a b : ℚ) : ℚ := a + t * (b - a)

/-- Fade curve, from `PerlinNoise.fade`: `t*t*t*(t*(t*6-15)+10)`,
i.e. `6t^5 - 15t^4 + 10t^3`. -/
def fade (t : ℚ) : ℚ := t * t * t * (t * (t * 6 - 15) + 10)

/-- Gradient dot product, from `PerlinNoise.grad`.  `hash &&& 15` models
`hash & 15`; the sign tests `(h & 1) === 0` and `(h & 2) === 0` are the
low-bit tests `h &&& 1 = 0` and `h &&& 2 = 0`. -/
def grad (hash : ℕ) (x y z : ℚ) : ℚ :=
  let h := hash &&& 15
  let u := if h < 8 then x else y
  let v := if h < 4 then y else if h = 12 ∨ h = 14 then x else z
  (if h &&& 1 = 0 then u else -u) + (if h &&& 2 = 0 then v else -v)

/-- Body of `PerlinNoise.noise` with the unit-cube decomposition made
explicit: `Xc Yc Zc` are the integer parts (`Math.floor` of each input)
and `xf yf zf` the fractional parts.  The source's `Math.floor(x) & 255`
on a (possibly negative) integer equals `⌊x⌋ % 256` with the
always-nonnegative `Int.emod` (JavaScript bit operations reduce mod 2^32
first, and mod 256 of that is mod 256).  `p` is the 512-entry doubled
permutation table `this.p`, read as a function. -/
def noisePoly (p : ℕ → ℕ) (Xc Yc Zc : ℤ) (xf yf zf : ℚ) : ℚ :=
  let X : ℕ := (Xc % 256).toNat
  let Y : ℕ := (Yc % 256).toNat
  let Z : ℕ := (Zc % 256).toNat
  let u := fade xf
  let v := fade yf
  let w := fade zf
  let A := p X + Y
  let AA := p A + Z
  let AB := p (A + 1) + Z
  let B := p (X + 1) + Y
  let BA := p B + Z
  let BB := p (B + 1) + Z
  lerp w
    (lerp v
      (lerp u (grad (p AA) xf yf zf) (grad (p BA) (xf - 1) yf zf))
      (lerp u (grad (p AB) xf (yf - 1) zf) (grad (p BB) (xf - 1) (yf - 1) zf)))
    (lerp v
      (lerp u (grad (p (AA + 1)) xf yf (zf - 1)) (grad (p (BA + 1)) (xf - 1) yf (zf - 1)))
      (lerp u (grad (p (AB + 1)) xf (yf - 1) (zf - 1)) (grad (p (BB + 1)) (xf - 1) (yf - 1) (zf - 1))))

/-- The noise function `PerlinNoise.noise`: split the input into its unit
cube (`Math.floor`) and relative coordinates (`x -= Math.floor(x)`), then
evaluate the per-cell interpolation polynomial. -/
def noise (p : ℕ → ℕ) (x y z : ℚ) : ℚ :=
  noisePoly p ⌊x⌋ ⌊y⌋ ⌊z⌋ (x - ⌊x⌋) (y - ⌊y⌋) (z - ⌊z⌋)

/-- One step of the constructor's Fisher-Yates shuffle
(`for (let i = 255; i > 0; i--)`): at loop iteration `k` (so `i = 255 - k`)
draw `j = Math.floor(rand * (i + 1))` from the supplied random stream and
swap entries `i` and `j`.  The destructuring swap reads both entries
before writing. -/
def fisherYatesStep (rand : ℕ → ℚ) (a : Array ℕ) (k : ℕ) : Array ℕ :=
  let i := 255 - k
  let j := (⌊rand k * (i + 1 : ℚ)⌋).toNat
  let vi := a.getD i 0
  let vj := a.getD j 0
  (a.setD i vj).setD j vi

/-- The shuffled `this.permutation` array: `0..255` filled in order, then
shuffled by the 255 Fisher-Yates iterations, consuming the random stream
`rand` (the successive `Math.random()` results of the constructor). -/
def mkPermutation (rand : ℕ → ℚ) : Array ℕ :=
  (List.range 255).foldl (fisherYatesStep rand) (Array.range 256)

/-- The doubled table `this.p`: `p[i] = permutation[i & 255]`. -/
def permTable (rand : ℕ → ℚ) : ℕ → ℕ :=
  fun i => (mkPermutation rand).getD (i % 256) 0

/-- Indices used to read the permutation table `this.p` during one call of
`PerlinNoise.noise`, in source order: the corner-hash chain
`X, X+1, A, A+1, B, B+1` and the eight corner reads `AA, BA, AB, BB` and
their `+1` variants. -/
def noiseIndices (p : ℕ → ℕ) (x y z : ℚ) : List ℕ :=
  let X : ℕ := ((⌊x⌋ : ℤ) % 256).toNat
  let Y : ℕ := ((⌊y⌋ : ℤ) % 256).toNat
  let Z : ℕ := ((⌊z⌋ : ℤ) % 256).toNat
  let A := p X + Y
  let AA := p A + Z
  let AB := p (A + 1) + Z
  let B := p (X + 1) + Y
  let BA := p B + Z
  let BB := p (B + 1) + Z
  [X, X + 1, A, A + 1, B, B + 1, AA, BA, AB, BB, AA + 1, BA + 1, AB + 1, BB + 1]

/-- Helper table used by concrete witnesses. -/
def zeroTable : ℕ → ℕ := fun _ => 0

/-- Table with byte entries and the doubled-table periodicity, used by
concrete witnesses. -/
def modTable : ℕ → ℕ := fun k => k % 256

/-- Particle position, one triple of the flat `positions` array. -/
structure Vec3 where
  x : ℚ
  y : ℚ
  z : ℚ
deriving DecidableEq

instance : Add Vec3 := ⟨fun a b => ⟨a.x + b.x, a.y + b.y, a.z + b.z⟩⟩

/-- Squared distance `dx*dx + dy*dy + dz*dz` between two particles, as
computed in the repulsion loop. -/
def dist2 (a b : Vec3) : ℚ :=
  (a.x - b.x) * (a.x - b.x) + (a.y - b.y) * (a.y - b.y) + (a.z - b.z) * (a.z - b.z)

/-- Squared Euclidean norm, used to state force-magnitude properties
without leaving the rationals. -/
def normSq (v : Vec3) : ℚ := v.x * v.x + v.y * v.y + v.z * v.z

/-- The transcendental `Math` primitives the particle integrator calls
(`Math.sin`, `Math.cos`, `Math.atan2`, `Math.sqrt`, `Math.pow`,
`Math.PI`).  They are not rational functions, so the embedding abstracts
them as an explicit record and quantifies over it; structural claims hold
for every instantiation. -/
structure JSMath where
  sin : ℚ → ℚ
  cos : ℚ → ℚ
  atan2 : ℚ → ℚ → ℚ
  sqrt : ℚ → ℚ
  pow : ℚ → ℚ → ℚ
  pi : ℚ

/-- The simulation settings assigned in `FlowField.init`. -/
structure Config where
  fieldSize : ℚ
  particleSpeed : ℚ
  repulsionRadius : ℚ
  repulsionForce : ℚ
  spatialHashCellSize : ℚ
  cylinderRadius : ℚ
  cylinderForce : ℚ
  cylinderInfluenceRadius : ℚ
  cylinderFalloff : ℚ
  noiseScaleX : ℚ
  noiseScaleY : ℚ
  noiseScaleZ : ℚ
  secondaryNoiseScaleX : ℚ
  secondaryNoiseScaleY : ℚ
  secondaryNoiseScaleZ : ℚ
  noiseInfluencePrimary : ℚ
  noiseInfluenceSecondary : ℚ
  zInfluence : ℚ
  timeScale : ℚ

/-- The literal values from `FlowField.init` of the repulsion variant. -/
def defaultConfig : Config where
  fieldSize := 60
  particleSpeed := 1/10
  repulsionRadius := 1/2
  repulsionForce := 1/50
  spatialHashCellSize := 1
  cylinderRadius := 15
  cylinderForce := 3/100
  cylinderInfluenceRadius := 40
  cylinderFalloff := 4/5
  noiseScaleX := 1/10
  noiseScaleY := 1/10
  noiseScaleZ := 3/20
  secondaryNoiseScaleX := 1/5
  secondaryNoiseScaleY := 1/5
  secondaryNoiseScaleZ := 1/4
  noiseInfluencePrimary := 7/10
  noiseInfluenceSecondary := 3/10
  zInfluence := 3/2
  timeScale := 1/2000

/-- Cell key of a position: `Math.floor(coord / cellSize)` per axis.  The
source builds the string key from the integer triple; distinct triples
give distinct strings, so the triple itself is the key. -/
def cellOf (cs : ℚ) (v : Vec3) : ℤ × ℤ × ℤ :=
  (⌊v.x / cs⌋, ⌊v.y / cs⌋, ⌊v.z / cs⌋)

/-- Contents of one spatial-hash bucket after the first pass: particle
indices are pushed in increasing order, so a bucket is the ordered list of
indices below `n` whose position hashes to the cell. -/
def bucket (cs : ℚ) (n : ℕ) (pos : ℕ → Vec3) (c : ℤ × ℤ × ℤ) : List ℕ :=
  (List.range n).filter fun j => decide (cellOf cs (pos j) = c)

/-- The 27 cell offsets enumerated by the triple `dx/dy/dz` loops, in
source order. -/
def neighborOffsets : List (ℤ × ℤ × ℤ) :=
  ([-1, 0, 1] : List ℤ).flatMap fun dx =>
    ([-1, 0, 1] : List ℤ).flatMap fun dy =>
      ([-1, 0, 1] : List ℤ).map fun dz => (dx, dy, dz)

/-- Candidate indices examined by particle `i`'s neighbor query: for each
of the 27 neighboring cells of the query point's cell, the bucket
contents from the (pre-step) spatial hash, skipping `i` itself
(`i !== j`). -/
def queryCandidates (cs : ℚ) (n : ℕ) (hashPos : ℕ → Vec3) (i : ℕ) (pt : Vec3) : List ℕ :=
  let c := cellOf cs pt
  neighborOffsets.flatMap fun d =>
    (bucket cs n hashPos (c.1 + d.1, c.2.1 + d.2.1, c.2.2 + d.2.2)).filter
      fun j => decide (j ≠ i)

/-- Repulsion contribution of one examined neighbor `b` on the particle at
`a` (source lines around the `distSq` guard): inside the guard
`distSq < repulsionRadius² && distSq > 0`, the force
`(1 - dist/repulsionRadius) * repulsionForce` is applied along the unit
vector `(dx/dist, dy/dist, dz/dist)`; otherwise nothing is added. -/
def repulsionContribution (m : JSMath) (r F : ℚ) (a b : Vec3) : Vec3 :=
  let dx := a.x - b.x
  let dy := a.y - b.y
  let dz := a.z - b.z
  let distSq := dx * dx + dy * dy + dz * dz
  if distSq < r * r ∧ distSq > 0 then
    let dist := m.sqrt distSq
    let force := (1 - dist / r) * F
    ⟨dx / dist * force, dy / dist * force, dz / dist * force⟩
  else ⟨0, 0, 0⟩

/-- Accumulated repulsion for particle `i`: fold the per-neighbor
contribution over the candidates, reading neighbor positions from the
in-place array `cur` (the spatial hash itself was built from `hashPos`). -/
def accumRepulsion (m : JSMath) (r F cs : ℚ) (n : ℕ) (hashPos cur : ℕ → Vec3)
    (i : ℕ) (pt : Vec3) : Vec3 :=
  (queryCandidates cs n hashPos i pt).foldl
    (fun acc j => acc + repulsionContribution m r F pt (cur j)) ⟨0, 0, 0⟩

/-- The cylinder attractor's `(y, z)` force components, from the
`distanceFromAxis` / `atan2` / falloff computation. -/
def cylinderForceVec (m : JSMath) (cfg : Config) (pt : Vec3) : ℚ × ℚ :=
  let distanceFromAxis := m.sqrt (pt.y * pt.y + pt.z * pt.z)
  let angle := m.atan2 pt.z pt.y
  let radiusDiff := cfg.cylinderRadius - distanceFromAxis
  let distanceInfluence :=
    m.pow (max 0 (1 - distanceFromAxis / cfg.cylinderInfluenceRadius)) cfg.cylinderFalloff
  (radiusDiff * m.cos angle * cfg.cylinderForce * distanceInfluence,
   radiusDiff * m.sin angle * cfg.cylinderForce * distanceInfluence)

/-- The flow-field velocity direction of one particle: five noise samples
at offset coordinates blended into the two spherical angles and the
z-specific angle, converted to Cartesian components. -/
def flowVelocity (m : JSMath) (cfg : Config) (p : ℕ → ℕ) (time : ℚ) (pt : Vec3) : Vec3 :=
  let timeOffset := time * (1/10)
  let primaryNoise1 := noise p (pt.x * cfg.noiseScaleX) (pt.y * cfg.noiseScaleY)
    (pt.z * cfg.noiseScaleZ * cfg.zInfluence + time)
  let primaryNoise2 := noise p (pt.x * cfg.noiseScaleX + 100) (pt.y * cfg.noiseScaleY + 100)
    (pt.z * cfg.noiseScaleZ * cfg.zInfluence + 100 + time)
  let secondaryNoise1 := noise p (pt.x * cfg.secondaryNoiseScaleX + 200)
    (pt.y * cfg.secondaryNoiseScaleY + 200)
    (pt.z * cfg.secondaryNoiseScaleZ * cfg.zInfluence + 200 + timeOffset)
  let secondaryNoise2 := noise p (pt.x * cfg.secondaryNoiseScaleX + 300)
    (pt.y * cfg.secondaryNoiseScaleY + 300)
    (pt.z * cfg.secondaryNoiseScaleZ * cfg.zInfluence + 300 + timeOffset)
  let angle1 := (primaryNoise1 * cfg.noiseInfluencePrimary
    + secondaryNoise1 * cfg.noiseInfluenceSecondary) * m.pi * 2
  let angle2 := (primaryNoise2 * cfg.noiseInfluencePrimary
    + secondaryNoise2 * cfg.noiseInfluenceSecondary) * m.pi
  let zAngle := noise p (pt.x * cfg.noiseScaleX + 400) (pt.y * cfg.noiseScaleY + 400)
    (pt.z * cfg.noiseScaleZ + 400 + time) * m.pi * (1/2)
  ⟨m.sin angle1 * m.cos angle2,
   m.sin angle1 * m.sin angle2,
   m.cos angle1 + m.sin zAngle * (1/2)⟩

/-- The toroidal boundary wrap applied to one coordinate after
integration (the three identical per-axis `if`/`else if` blocks). -/
def wrapCoord (halfSize x : ℚ) : ℚ :=
  if x > halfSize then -halfSize + (x - halfSize)
  else if x < -halfSize then halfSize - (|x| - halfSize)
  else x

/-- The body of the second-pass loop for particle `i`: read the particle
from the in-place array, accumulate repulsion (hash from the pre-step
positions, neighbor reads from the in-place array), add cylinder and
flow-field forces scaled as in the source, then wrap each coordinate. -/
def updateOne (m : JSMath) (cfg : Config) (p : ℕ → ℕ) (time : ℚ) (n : ℕ)
    (hashPos cur : ℕ → Vec3) (i : ℕ) : Vec3 :=
  let pt := cur i
  let rep := accumRepulsion m cfg.repulsionRadius cfg.repulsionForce
    cfg.spatialHashCellSize n hashPos cur i pt
  let cyl := cylinderForceVec m cfg pt
  let v := flowVelocity m cfg p time pt
  let x := pt.x + (v.x * cfg.particleSpeed) + rep.x
  let y := pt.y + (v.y * cfg.particleSpeed) + cyl.1 + rep.y
  let z := pt.z + (v.z * cfg.particleSpeed) + cyl.2 + rep.z
  let halfSize := cfg.fieldSize / 2
  ⟨wrapCoord halfSize x, wrapCoord halfSize y, wrapCoord halfSize z⟩

/-- Write particle `i`'s slot of the in-place positions array. -/
def setPos (cur : ℕ → Vec3) (i : ℕ) (v : Vec3) : ℕ → Vec3 :=
  fun k => if k = i then v else cur k

/-- State of the in-place positions array after the second-pass loop has
processed particles `0, …, k-1` of one `updateParticles` call whose
spatial hash was built from `pre`. -/
def stepUpTo (m : JSMath) (cfg : Config) (p : ℕ → ℕ) (time : ℚ) (n : ℕ)
    (pre : ℕ → Vec3) (k : ℕ) : ℕ → Vec3 :=
  (List.range k).foldl
    (fun cur i => setPos cur i (updateOne m cfg p time n pre cur i)) pre

/-- One full `FlowField.updateParticles` call, positions only: build the
hash from the current (pre-step) positions, then run the in-place
second-pass loop over all `n` particles. -/
def updateParticles (m : JSMath) (cfg : Config) (p : ℕ → ℕ) (time : ℚ) (n : ℕ)
    (pre : ℕ → Vec3) : ℕ → Vec3 :=
  stepUpTo m cfg p time n pre n

/-- Modelled from the spec: the reference two-phase step in which every
particle's forces are computed from the full pre-step snapshot and all
new positions are written only afterwards. -/
def updateParticlesSnapshot (m : JSMath) (cfg : Config) (p : ℕ → ℕ) (time : ℚ)
    (n : ℕ) (pre : ℕ → Vec3) : ℕ → Vec3 :=
  fun i => if i < n then updateOne m cfg p time n pre pre i else pre i

/-- Concrete instantiation of the `Math` primitives used by
counterexamples and witnesses: trigonometric functions are constantly 0,
`pow` is constantly 0, and `sqrt` is exact on the two squared distances
that occur. -/
def mZero : JSMath where
  sin := fun _ => 0
  cos := fun _ => 0
  atan2 := fun _ _ => 0
  sqrt := fun q => if q = 1/16 then 1/4 else if q = 169/2500 then 13/50 else 0
  pow := fun _ _ => 0
  pi := 0

/-- Two particles a quarter unit apart on the x axis (both inside one
spatial-hash cell and within the default repulsion radius 1/2). -/
def posPair : ℕ → Vec3 := fun k => if k = 0 then ⟨0, 0, 0⟩ else ⟨1/4, 0, 0⟩

lemma fade_zero : fade 0 = 0 := by norm_num [fade]

lemma fade_one : fade 1 = 1 := by norm_num [fade]

lemma lerp_zero (a b : ℚ) : lerp 0 a b = a := by simp [lerp]

lemma lerp_one (a b : ℚ) : lerp 1 a b = b := by simp [lerp]

lemma grad_zero (h : ℕ) : grad h 0 0 0 = 0 := by
  simp only [grad]
  split_ifs <;> norm_num

lemma noisePoly_zero_frac (p : ℕ → ℕ) (Xc Yc Zc : ℤ) :
    noisePoly p Xc Yc Zc 0 0 0 = 0 := by
  simp only [noisePoly, fade_zero, lerp_zero, grad_zero]

/-- C9: for every integer-valued input, `noise` returns exactly 0,
regardless of the permutation table: all three fractional parts vanish,
the trilinear interpolation collapses to the corner gradient
`grad(p[AA], 0, 0, 0)`, and `grad` of the zero offset is 0 for every
hash. -/
theorem noise_int_eq_zero (p : ℕ → ℕ) (a b c : ℤ) :
    noise p (a : ℚ) (b : ℚ) (c : ℚ) = 0 := by
  have ha : ((a : ℚ) - ⌊(a : ℚ)⌋) = 0 := by rw [Int.floor_intCast]; ring
  have hb : ((b : ℚ) - ⌊(b : ℚ)⌋) = 0 := by rw [Int.floor_intCast]; ring
  have hc : ((c : ℚ) - ⌊(c : ℚ)⌋) = 0 := by rw [Int.floor_intCast]; ring
  rw [noise, ha, hb, hc, noisePoly_zero_frac]

/-- C10: every index into the 512-entry permutation table during one
evaluation of `noise` lies in `[0, 511]`, provided the table's entries are
bytes (`≤ 255`, as guaranteed by `Uint8Array`): the masked cell
coordinates are at most 255, so each nested lookup index is at most
`255 + 255 + 1 = 511`. -/
theorem noise_indices_le (p : ℕ → ℕ) (hp : ∀ k, p k ≤ 255) (x y z : ℚ) :
    ∀ idx ∈ noiseIndices p x y z, idx ≤ 511 := by
  intro idx hidx
  have hX : ((⌊x⌋ : ℤ) % 256).toNat ≤ 255 := by omega
  have hY : ((⌊y⌋ : ℤ) % 256).toNat ≤ 255 := by omega
  have hZ : ((⌊z⌋ : ℤ) % 256).toNat ≤ 255 := by omega
  simp only [noiseIndices, List.mem_cons, List.not_mem_nil, or_false] at hidx
  have h1 := hp (((⌊x⌋ : ℤ) % 256).toNat)
  have h2 := hp (p (((⌊x⌋ : ℤ) % 256).toNat) + ((⌊y⌋ : ℤ) % 256).toNat)
  have h3 := hp (p (((⌊x⌋ : ℤ) % 256).toNat) + ((⌊y⌋ : ℤ) % 256).toNat + 1)
  have h4 := hp ((((⌊x⌋ : ℤ) % 256).toNat + 1))
  have h5 := hp (p ((((⌊x⌋ : ℤ) % 256).toNat + 1)) + ((⌊y⌋ : ℤ) % 256).toNat)
  have h6 := hp (p ((((⌊x⌋ : ℤ) % 256).toNat + 1)) + ((⌊y⌋ : ℤ) % 256).toNat + 1)
  rcases hidx with h | h | h | h | h | h | h | h | h | h | h | h | h | h <;> omega

/-- Witness for C10 at the concrete table `zeroTable` and input
`(0, 0, 0)`: the index `1` (namely `X + 1`) is among the accessed indices
and is within bounds. -/
theorem noise_indices_le_witness : (1 : ℕ) ≤ 511 :=
  noise_indices_le zeroTable (fun _ => by norm_num [zeroTable]) 0 0 0 1 (by decide)

/-- C4: determinism of the noise generator.  The constructor's only
source of randomness is the stream of `Math.random()` draws, modelled as
the explicit input `rand`; two instances built from identical streams
(the same seed) have identical tables, hence `noise` is bit-for-bit
reproducible across repeated calls and across separate runs at every
input. -/
theorem noise_deterministic (r₁ r₂ : ℕ → ℚ) (h : ∀ k, r₁ k = r₂ k)
    (x y z : ℚ) :
    noise (permTable r₁) x y z = noise (permTable r₂) x y z := by
  have hr : r₁ = r₂ := funext h
  rw [hr]

/-- Witness for C4 at the constant stream `1/2` and input `(1, 2, 3)`. -/
theorem noise_deterministic_witness :
    noise (permTable fun _ => (1 : ℚ) / 2) 1 2 3
      = noise (permTable fun _ => (1 : ℚ) / 2) 1 2 3 :=
  noise_deterministic (fun _ => (1 : ℚ) / 2) (fun _ => (1 : ℚ) / 2)
    (fun _ => rfl) 1 2 3

lemma fade_nonneg {t : ℚ} (h0 : 0 ≤ t) : 0 ≤ fade t := by
  have key : fade t = 6 * (t * t * t * ((t - 5/4) * (t - 5/4))) + (5/8) * (t * t * t) := by
    simp only [fade]; ring
  have h3 : 0 ≤ t * t * t := by positivity
  have h4 : 0 ≤ t * t * t * ((t - 5/4) * (t - 5/4)) :=
    mul_nonneg h3 (mul_self_nonneg _)
  rw [key]
  linarith

lemma fade_le_one {t : ℚ} (h0 : 0 ≤ t) (h1 : t ≤ 1) : fade t ≤ 1 := by
  have hs : 0 ≤ 1 - t := by linarith
  have hq : 0 ≤ 6 * t ^ 2 + 3 * t + 1 := by positivity
  have key : 1 - fade t = ((1 - t) * (1 - t) * (1 - t)) * (6 * t ^ 2 + 3 * t + 1) := by
    simp only [fade]; ring
  have h4 : 0 ≤ ((1 - t) * (1 - t) * (1 - t)) * (6 * t ^ 2 + 3 * t + 1) :=
    mul_nonneg (mul_nonneg (mul_nonneg hs hs) hs) hq
  linarith

lemma grad_abs_le (h : ℕ) (x y z : ℚ) : |grad h x y z| ≤ |x| + |y| + |z| := by
  simp only [grad]
  generalize h &&& 15 = a
  split_ifs <;>
    first
      | omega
      | (rw [abs_le]; constructor <;>
          linarith [le_abs_self x, neg_abs_le x, le_abs_self y, neg_abs_le y,
            le_abs_self z, neg_abs_le z, abs_nonneg x, abs_nonneg y, abs_nonneg z])

lemma lerp_abs_le {t a b ca cb : ℚ} (h0 : 0 ≤ t) (h1 : t ≤ 1)
    (ha : |a| ≤ ca) (hb : |b| ≤ cb) : |lerp t a b| ≤ lerp t ca cb := by
  have e : lerp t a b = (1 - t) * a + t * b := by simp only [lerp]; ring
  have e2 : lerp t ca cb = (1 - t) * ca + t * cb := by simp only [lerp]; ring
  rw [e, e2]
  have h2 : (0 : ℚ) ≤ 1 - t := by linarith
  calc |(1 - t) * a + t * b| ≤ |(1 - t) * a| + |t * b| := abs_add _ _
    _ = (1 - t) * |a| + t * |b| := by
        rw [abs_mul, abs_mul, abs_of_nonneg h2, abs_of_nonneg h0]
    _ ≤ (1 - t) * ca + t * cb := by
        have q1 := mul_le_mul_of_nonneg_left ha h2
        have q2 := mul_le_mul_of_nonneg_left hb h0
        linarith

lemma lerp_fade_le_half {t : ℚ} (h0 : 0 ≤ t) (h1 : t ≤ 1) :
    lerp (fade t) t (1 - t) ≤ 1/2 := by
  have hg : 0 ≤ 6 * t ^ 4 - 12 * t ^ 3 + 4 * t ^ 2 + 2 * t + 1 := by
    nlinarith [sq_nonneg (t * (t - 1)), mul_nonneg h0 (by linarith : (0 : ℚ) ≤ 1 - t)]
  have key : lerp (fade t) t (1 - t) - 1/2
      = -2 * ((t - 1/2) ^ 2 * (6 * t ^ 4 - 12 * t ^ 3 + 4 * t ^ 2 + 2 * t + 1)) := by
    simp only [lerp, fade]; ring
  have hprod : 0 ≤ (t - 1/2) ^ 2 * (6 * t ^ 4 - 12 * t ^ 3 + 4 * t ^ 2 + 2 * t + 1) :=
    mul_nonneg (sq_nonneg _) hg
  linarith

lemma trilerp_abs_le (xf yf zf : ℚ)
    (hx0 : 0 ≤ xf) (hx1 : xf ≤ 1) (hy0 : 0 ≤ yf) (hy1 : yf ≤ 1)
    (hz0 : 0 ≤ zf) (hz1 : zf ≤ 1)
    {g000 g100 g010 g110 g001 g101 g011 g111 : ℚ}
    (h000 : |g000| ≤ xf + yf + zf)
    (h100 : |g100| ≤ (1 - xf) + yf + zf)
    (h010 : |g010| ≤ xf + (1 - yf) + zf)
    (h110 : |g110| ≤ (1 - xf) + (1 - yf) + zf)
    (h001 : |g001| ≤ xf + yf + (1 - zf))
    (h101 : |g101| ≤ (1 - xf) + yf + (1 - zf))
    (h011 : |g011| ≤ xf + (1 - yf) + (1 - zf))
    (h111 : |g111| ≤ (1 - xf) + (1 - yf) + (1 - zf)) :
    |lerp (fade zf)
       (lerp (fade yf) (lerp (fade xf) g000 g100) (lerp (fade xf) g010 g110))
       (lerp (fade yf) (lerp (fade xf) g001 g101) (lerp (fade xf) g011 g111))| ≤ 3/2 := by
  have hu0 := fade_nonneg hx0
  have hu1 := fade_le_one hx0 hx1
  have hv0 := fade_nonneg hy0
  have hv1 := fade_le_one hy0 hy1
  have hw0 := fade_nonneg hz0
  have hw1 := fade_le_one hz0 hz1
  have b1 := lerp_abs_le hu0 hu1 h000 h100
  have b2 := lerp_abs_le hu0 hu1 h010 h110
  have b3 := lerp_abs_le hu0 hu1 h001 h101
  have b4 := lerp_abs_le hu0 hu1 h011 h111
  have c1 := lerp_abs_le hv0 hv1 b1 b2
  have c2 := lerp_abs_le hv0 hv1 b3 b4
  have d1 := lerp_abs_le hw0 hw1 c1 c2
  have key : lerp (fade zf)
      (lerp (fade yf)
        (lerp (fade xf) (xf + yf + zf) ((1 - xf) + yf + zf))
        (lerp (fade xf) (xf + (1 - yf) + zf) ((1 - xf) + (1 - yf) + zf)))
      (lerp (fade yf)
        (lerp (fade xf) (xf + yf + (1 - zf)) ((1 - xf) + yf + (1 - zf)))
        (lerp (fade xf) (xf + (1 - yf) + (1 - zf)) ((1 - xf) + (1 - yf) + (1 - zf))))
      = lerp (fade xf) xf (1 - xf) + lerp (fade yf) yf (1 - yf)
          + lerp (fade zf) zf (1 - zf) := by
    simp only [lerp]; ring
  rw [key] at d1
  have e1 := lerp_fade_le_half hx0 hx1
  have e2 := lerp_fade_le_half hy0 hy1
  have e3 := lerp_fade_le_half hz0 hz1
  linarith

/-- C8: the noise value is bounded by 3/2 in absolute value at every
rational input, for every permutation table: each corner gradient is a
signed sum of two of the three corner offsets, so its magnitude is at
most the sum of the three offset magnitudes, and the faded trilinear
blend of those bounds is at most 1/2 per axis. -/
theorem noise_abs_le (p : ℕ → ℕ) (x y z : ℚ) : |noise p x y z| ≤ 3/2 := by
  have hx0 : (0 : ℚ) ≤ x - ⌊x⌋ := sub_nonneg.mpr (Int.floor_le x)
  have hx1 : x - ⌊x⌋ ≤ 1 := by have := Int.lt_floor_add_one x; linarith
  have hy0 : (0 : ℚ) ≤ y - ⌊y⌋ := sub_nonneg.mpr (Int.floor_le y)
  have hy1 : y - ⌊y⌋ ≤ 1 := by have := Int.lt_floor_add_one y; linarith
  have hz0 : (0 : ℚ) ≤ z - ⌊z⌋ := sub_nonneg.mpr (Int.floor_le z)
  have hz1 : z - ⌊z⌋ ≤ 1 := by have := Int.lt_floor_add_one z; linarith
  have ax : |x - ⌊x⌋| = x - ⌊x⌋ := abs_of_nonneg hx0
  have ax1 : |x - ⌊x⌋ - 1| = 1 - (x - ⌊x⌋) := by
    rw [abs_of_nonpos (by linarith)]; ring
  have ay : |y - ⌊y⌋| = y - ⌊y⌋ := abs_of_nonneg hy0
  have ay1 : |y - ⌊y⌋ - 1| = 1 - (y - ⌊y⌋) := by
    rw [abs_of_nonpos (by linarith)]; ring
  have az : |z - ⌊z⌋| = z - ⌊z⌋ := abs_of_nonneg hz0
  have az1 : |z - ⌊z⌋ - 1| = 1 - (z - ⌊z⌋) := by
    rw [abs_of_nonpos (by linarith)]; ring
  simp only [noise, noisePoly]
  refine trilerp_abs_le (x - ⌊x⌋) (y - ⌊y⌋) (z - ⌊z⌋)
    hx0 hx1 hy0 hy1 hz0 hz1 ?_ ?_ ?_ ?_ ?_ ?_ ?_ ?_ <;>
    · refine le_trans (grad_abs_le _ _ _ _) ?_
      simp only [ax, ax1, ay, ay1, az, az1, le_refl]

lemma pmask_shift (p : ℕ → ℕ) (hper : ∀ k, k < 256 → p (k + 256) = p k)
    (base : ℕ) (hb : base ≤ 255) (c : ℤ) :
    p (base + ((c + 1) % 256).toNat) = p (base + (c % 256).toNat + 1) := by
  rcases (by omega :
      (((c % 256 : ℤ)).toNat = 255 ∧ (((c + 1) % 256 : ℤ)).toNat = 0) ∨
        (((c + 1) % 256 : ℤ)).toNat = ((c % 256 : ℤ)).toNat + 1) with ⟨h1, h2⟩ | h
  · rw [h1, h2]
    have h3 := hper base (by omega)
    have h4 : base + 255 + 1 = base + 256 := by omega
    rw [h4, Nat.add_zero, h3]
  · rw [h, Nat.add_assoc]

lemma pmask_succ (p : ℕ → ℕ) (hper : ∀ k, k < 256 → p (k + 256) = p k)
    (c : ℤ) :
    p (((c + 1) % 256).toNat) = p ((c % 256).toNat + 1) := by
  have h := pmask_shift p hper 0 (by norm_num) c
  simpa using h

/-- C7: the noise function has no jump at integer lattice boundaries,
formulated over exact arithmetic: `noise` factors through the per-cell
interpolation polynomial `noisePoly` applied to the floor and fractional
parts, and for each axis the polynomial of a cell evaluated at fractional
coordinate 1 coincides with the polynomial of the next cell evaluated at
fractional coordinate 0 — given the table invariants produced by the
constructor (byte entries and the doubled-table periodicity
`p[i+256] = p[i]`). -/
theorem noisePoly_lattice_boundary (p : ℕ → ℕ) (hp : ∀ k, p k ≤ 255)
    (hper : ∀ k, k < 256 → p (k + 256) = p k) (Xc Yc Zc : ℤ) (xf yf zf : ℚ) :
    (∀ x y z : ℚ,
        noise p x y z = noisePoly p ⌊x⌋ ⌊y⌋ ⌊z⌋ (x - ⌊x⌋) (y - ⌊y⌋) (z - ⌊z⌋)) ∧
    noisePoly p Xc Yc Zc 1 yf zf = noisePoly p (Xc + 1) Yc Zc 0 yf zf ∧
    noisePoly p Xc Yc Zc xf 1 zf = noisePoly p Xc (Yc + 1) Zc xf 0 zf ∧
    noisePoly p Xc Yc Zc xf yf 1 = noisePoly p Xc Yc (Zc + 1) xf yf 0 := by
  refine ⟨fun x y z => rfl, ?_, ?_, ?_⟩
  · have e := pmask_succ p hper Xc
    simp only [noisePoly, fade_one, fade_zero, lerp_one, lerp_zero, sub_self, e]
  · have e1 := pmask_shift p hper (p ((Xc % 256).toNat)) (hp _) Yc
    have e2 := pmask_shift p hper (p ((Xc % 256).toNat + 1)) (hp _) Yc
    simp only [noisePoly, fade_one, fade_zero, lerp_one, lerp_zero, sub_self, e1, e2]
  · have e1 := pmask_shift p hper
      (p (p ((Xc % 256).toNat) + (Yc % 256).toNat)) (hp _) Zc
    have e2 := pmask_shift p hper
      (p (p ((Xc % 256).toNat) + (Yc % 256).toNat + 1)) (hp _) Zc
    have e3 := pmask_shift p hper
      (p (p ((Xc % 256).toNat + 1) + (Yc % 256).toNat)) (hp _) Zc
    have e4 := pmask_shift p hper
      (p (p ((Xc % 256).toNat + 1) + (Yc % 256).toNat + 1)) (hp _) Zc
    simp only [noisePoly, fade_one, fade_zero, lerp_one, lerp_zero, sub_self,
      e1, e2, e3, e4]

lemma modTable_le (k : ℕ) : modTable k ≤ 255 := by
  simp only [modTable]; omega

lemma modTable_per (k : ℕ) (_hk : k < 256) : modTable (k + 256) = modTable k := by
  simp only [modTable]; omega

/-- Witness for C7: the x-axis boundary identity at the concrete table
`modTable`, cells `(0,0,0)` and `(1,0,0)`, fractional point `(1/2, 1/3)`. -/
theorem noisePoly_lattice_boundary_witness :
    noisePoly modTable 0 0 0 1 (1/2) (1/3)
      = noisePoly modTable 1 0 0 0 (1/2) (1/3) :=
  (noisePoly_lattice_boundary modTable modTable_le modTable_per
    0 0 0 (1/4) (1/2) (1/3)).2.1

lemma dist2_comm (a b : Vec3) : dist2 a b = dist2 b a := by
  simp only [dist2]; ring

/-- C5: the boundary wrap maps an overshoot of `δ` past `+halfSize` to
`-halfSize + δ`, symmetrically maps `-halfSize - δ` to `halfSize - δ`
(for `0 < δ < fieldSize = 2 * halfSize`), and leaves coordinates already
in `[-halfSize, halfSize]` unchanged. -/
theorem wrapCoord_boundary (halfSize δ : ℚ) (hδ0 : 0 < δ) (hδ1 : δ < 2 * halfSize) :
    wrapCoord halfSize (halfSize + δ) = -halfSize + δ ∧
    wrapCoord halfSize (-halfSize - δ) = halfSize - δ ∧
    (∀ x : ℚ, -halfSize ≤ x → x ≤ halfSize → wrapCoord halfSize x = x) := by
  have hhalf : 0 < halfSize := by linarith
  refine ⟨?_, ?_, ?_⟩
  · rw [wrapCoord, if_pos (by linarith)]
    ring
  · rw [wrapCoord, if_neg (by rw [not_lt]; linarith), if_pos (by linarith),
      abs_of_nonpos (by linarith)]
    ring
  · intro x h1 h2
    rw [wrapCoord, if_neg (not_lt.mpr h2), if_neg (not_lt.mpr h1)]

/-- Witness for C5 at `halfSize = 30`, `δ = 1`. -/
theorem wrapCoord_boundary_witness : wrapCoord 30 (30 + 1) = -30 + 1 :=
  (wrapCoord_boundary 30 1 (by norm_num) (by norm_num)).1

lemma wrapCoord_mem (halfSize pre d : ℚ) (h0 : 0 < halfSize)
    (hpre1 : -halfSize ≤ pre) (hpre2 : pre ≤ halfSize) (hd : |d| < 2 * halfSize) :
    -halfSize ≤ wrapCoord halfSize (pre + d) ∧ wrapCoord halfSize (pre + d) ≤ halfSize := by
  rw [abs_lt] at hd
  rw [wrapCoord]
  split_ifs with h1 h2
  · constructor <;> linarith
  · rw [abs_of_nonpos (by linarith)]
    constructor <;> linarith
  · rw [not_lt] at h1 h2
    exact ⟨h2, h1⟩

lemma mem_neighborOffsets (dx dy dz : ℤ)
    (hx0 : -1 ≤ dx) (hx1 : dx ≤ 1) (hy0 : -1 ≤ dy) (hy1 : dy ≤ 1)
    (hz0 : -1 ≤ dz) (hz1 : dz ≤ 1) : (dx, dy, dz) ∈ neighborOffsets := by
  interval_cases dx <;> interval_cases dy <;> interval_cases dz <;> decide

lemma floor_div_adjacent {cs a b : ℚ} (hcs : 0 < cs) (h : |a - b| < cs) :
    -1 ≤ ⌊a / cs⌋ - ⌊b / cs⌋ ∧ ⌊a / cs⌋ - ⌊b / cs⌋ ≤ 1 := by
  rw [abs_lt] at h
  have key : ∀ u v : ℚ, u < v + cs → ⌊u / cs⌋ ≤ ⌊v / cs⌋ + 1 := by
    intro u v huv
    have h1 : u / cs ≤ v / cs + 1 := by
      rw [div_le_iff₀ hcs]
      have h2 : (v / cs + 1) * cs = v + cs := by field_simp
      rw [h2]; linarith
    calc ⌊u / cs⌋ ≤ ⌊v / cs + 1⌋ := Int.floor_le_floor h1
      _ = ⌊v / cs⌋ + 1 := by
          have h3 := Int.floor_add_int (v / cs) 1
          exact_mod_cast h3
  have k1 := key a b (by linarith)
  have k2 := key b a (by linarith)
  omega

lemma mem_query_of_close (cs r : ℚ) (n : ℕ) (pos : ℕ → Vec3) (i j : ℕ)
    (hr : 0 < r) (hcs : r ≤ cs) (hj : j < n) (hij : j ≠ i)
    (hdist : dist2 (pos i) (pos j) < r * r) :
    j ∈ queryCandidates cs n pos i (pos i) := by
  have hcs0 : 0 < cs := lt_of_lt_of_le hr hcs
  have haxis : ∀ u v : ℚ, u * u ≤ dist2 (pos i) (pos j) → |u| < cs := by
    intro u v hu
    rw [abs_lt]
    constructor <;> nlinarith [hdist, hr, hcs, mul_le_mul hcs hcs hr.le hcs0.le]
  have hdxsq : ((pos i).x - (pos j).x) * ((pos i).x - (pos j).x)
      ≤ dist2 (pos i) (pos j) := by
    simp only [dist2]
    nlinarith [mul_self_nonneg ((pos i).y - (pos j).y),
      mul_self_nonneg ((pos i).z - (pos j).z)]
  have hdysq : ((pos i).y - (pos j).y) * ((pos i).y - (pos j).y)
      ≤ dist2 (pos i) (pos j) := by
    simp only [dist2]
    nlinarith [mul_self_nonneg ((pos i).x - (pos j).x),
      mul_self_nonneg ((pos i).z - (pos j).z)]
  have hdzsq : ((pos i).z - (pos j).z) * ((pos i).z - (pos j).z)
      ≤ dist2 (pos i) (pos j) := by
    simp only [dist2]
    nlinarith [mul_self_nonneg ((pos i).x - (pos j).x),
      mul_self_nonneg ((pos i).y - (pos j).y)]
  have hdx := haxis _ 0 hdxsq
  have hdy := haxis _ 0 hdysq
  have hdz := haxis _ 0 hdzsq
  have hfx := floor_div_adjacent hcs0 (by rw [abs_sub_comm] at hdx; exact hdx)
  have hfy := floor_div_adjacent hcs0 (by rw [abs_sub_comm] at hdy; exact hdy)
  have hfz := floor_div_adjacent hcs0 (by rw [abs_sub_comm] at hdz; exact hdz)
  simp only [queryCandidates, cellOf]
  rw [List.mem_flatMap]
  refine ⟨(⌊(pos j).x / cs⌋ - ⌊(pos i).x / cs⌋,
           ⌊(pos j).y / cs⌋ - ⌊(pos i).y / cs⌋,
           ⌊(pos j).z / cs⌋ - ⌊(pos i).z / cs⌋),
    mem_neighborOffsets _ _ _ hfx.1 hfx.2 hfy.1 hfy.2 hfz.1 hfz.2, ?_⟩
  rw [List.mem_filter]
  constructor
  · simp only [bucket, List.mem_filter, List.mem_range, cellOf]
    refine ⟨hj, ?_⟩
    simp only [decide_eq_true_eq, Prod.mk.injEq]
    omega
  · simpa using hij

/-- C1: exactness of the spatial-hash neighbor query.  Whenever
`cellSize ≥ repulsionRadius > 0` and two distinct stored particles are
within `repulsionRadius` of each other (squared distance below
`repulsionRadius²`), the 3×3×3-cell enumeration around either particle's
cell returns the other as a candidate. -/
theorem spatialHash_exact (cs r : ℚ) (n : ℕ) (pos : ℕ → Vec3) (i j : ℕ)
    (hr : 0 < r) (hcs : r ≤ cs) (hi : i < n) (hj : j < n) (hij : i ≠ j)
    (hdist : dist2 (pos i) (pos j) < r * r) :
    j ∈ queryCandidates cs n pos i (pos i) ∧
    i ∈ queryCandidates cs n pos j (pos j) := by
  refine ⟨mem_query_of_close cs r n pos i j hr hcs hj (Ne.symm hij) hdist, ?_⟩
  exact mem_query_of_close cs r n pos j i hr hcs hi hij (by rwa [dist2_comm])

/-- Witness for C1: the two particles of `posPair` with the default cell
size 1 and repulsion radius 1/2 find each other. -/
theorem spatialHash_exact_witness :
    1 ∈ queryCandidates 1 2 posPair 0 (posPair 0) ∧
    0 ∈ queryCandidates 1 2 posPair 1 (posPair 1) :=
  spatialHash_exact 1 (1/2) 2 posPair 0 1 (by norm_num) (by norm_num)
    (by norm_num) (by norm_num) (by norm_num)
    (by norm_num [dist2, posPair])

/-- C3: the per-neighbor repulsion contribution.  A force is added iff the
squared distance lies strictly between 0 and `repulsionRadius²`; in that
case it is the unit vector from the neighbor to the particle scaled by
`(1 - dist/repulsionRadius) * repulsionForce`, whose squared magnitude is
`((1 - dist/r) * F)²` — in particular 0 at `dist = r` (the branch is not
taken there) and `(F/2)²` at `dist = r/2`; the division by `dist` happens
only under the `distSq > 0` guard, so a zero distance contributes
nothing. -/
theorem repulsionContribution_spec (m : JSMath) (r F : ℚ) (a b : Vec3) (hr : 0 < r) :
    (dist2 a b = 0 → repulsionContribution m r F a b = ⟨0, 0, 0⟩) ∧
    (r * r ≤ dist2 a b → repulsionContribution m r F a b = ⟨0, 0, 0⟩) ∧
    (∀ d : ℚ, m.sqrt (dist2 a b) = d → d * d = dist2 a b → 0 < d →
      dist2 a b < r * r →
        repulsionContribution m r F a b
          = ⟨(a.x - b.x) / d * ((1 - d / r) * F),
             (a.y - b.y) / d * ((1 - d / r) * F),
             (a.z - b.z) / d * ((1 - d / r) * F)⟩ ∧
        normSq (repulsionContribution m r F a b)
          = ((1 - d / r) * F) * ((1 - d / r) * F) ∧
        (d = r / 2 → normSq (repulsionContribution m r F a b) = (F / 2) * (F / 2))) := by
  refine ⟨?_, ?_, ?_⟩
  · intro h0
    simp only [dist2] at h0
    simp only [repulsionContribution, h0]
    norm_num
  · intro hge
    simp only [dist2] at hge
    simp only [repulsionContribution]
    rw [if_neg]
    rw [not_and_or, not_lt]
    exact Or.inl hge
  · intro d hs hdd hdp hlt
    have hd0 : d ≠ 0 := ne_of_gt hdp
    have hgt : (0 : ℚ) < dist2 a b := by nlinarith
    have heq : repulsionContribution m r F a b
        = ⟨(a.x - b.x) / d * ((1 - d / r) * F),
           (a.y - b.y) / d * ((1 - d / r) * F),
           (a.z - b.z) / d * ((1 - d / r) * F)⟩ := by
      simp only [dist2] at hs hlt hgt
      simp only [repulsionContribution, if_pos (And.intro hlt hgt), hs]
    have hdd2 : (a.x - b.x) * (a.x - b.x) + (a.y - b.y) * (a.y - b.y)
        + (a.z - b.z) * (a.z - b.z) = d * d := by
      simp only [dist2] at hdd
      linarith
    have hnorm : normSq (repulsionContribution m r F a b)
        = ((1 - d / r) * F) * ((1 - d / r) * F) := by
      rw [heq]
      simp only [normSq]
      have hdd0 : d * d ≠ 0 := mul_ne_zero hd0 hd0
      refine mul_right_cancel₀ hdd0 ?_
      have e1 : ((a.x - b.x) / d * ((1 - d / r) * F) * ((a.x - b.x) / d * ((1 - d / r) * F))
          + (a.y - b.y) / d * ((1 - d / r) * F) * ((a.y - b.y) / d * ((1 - d / r) * F))
          + (a.z - b.z) / d * ((1 - d / r) * F) * ((a.z - b.z) / d * ((1 - d / r) * F)))
            * (d * d)
          = ((a.x - b.x) * (a.x - b.x) + (a.y - b.y) * (a.y - b.y)
              + (a.z - b.z) * (a.z - b.z)) * (((1 - d / r) * F) * ((1 - d / r) * F)) := by
        field_simp
        ring
      rw [e1, hdd2]
      ring
    refine ⟨heq, hnorm, ?_⟩
    intro hdr
    rw [hnorm, hdr]
    have hr0 : r ≠ 0 := ne_of_gt hr
    field_simp
    ring

/-- Witness for C3: the two particles of `posPair` at distance 1/4 with
the default radius 1/2 and force 1/50; here `dist = r/2`, so the squared
magnitude is `(F/2)²`. -/
theorem repulsionContribution_spec_witness :
    normSq (repulsionContribution mZero (1/2) (1/50) (posPair 1) (posPair 0))
      = ((1 : ℚ)/50 / 2) * ((1 : ℚ)/50 / 2) :=
  ((repulsionContribution_spec mZero (1/2) (1/50) (posPair 1) (posPair 0)
      (by norm_num)).2.2 (1/4)
    (by norm_num [dist2, posPair, mZero])
    (by norm_num [dist2, posPair])
    (by norm_num)
    (by norm_num [dist2, posPair])).2.2 (by norm_num)

lemma stepUpTo_succ (m : JSMath) (cfg : Config) (p : ℕ → ℕ) (time : ℚ) (n : ℕ)
    (pre : ℕ → Vec3) (k : ℕ) :
    stepUpTo m cfg p time n pre (k + 1)
      = setPos (stepUpTo m cfg p time n pre k) k
          (updateOne m cfg p time n pre (stepUpTo m cfg p time n pre k) k) := by
  simp only [stepUpTo, List.range_succ, List.foldl_append, List.foldl_cons,
    List.foldl_nil]

lemma stepUpTo_zero (m : JSMath) (cfg : Config) (p : ℕ → ℕ) (time : ℚ) (n : ℕ)
    (pre : ℕ → Vec3) : stepUpTo m cfg p time n pre 0 = pre := rfl

lemma stepUpTo_high (m : JSMath) (cfg : Config) (p : ℕ → ℕ) (time : ℚ) (n : ℕ)
    (pre : ℕ → Vec3) :
    ∀ i k, i ≤ k → stepUpTo m cfg p time n pre i k = pre k := by
  intro i
  induction i with
  | zero => intro k _; rfl
  | succ i ih =>
      intro k hk
      rw [stepUpTo_succ]
      simp only [setPos]
      rw [if_neg (by omega)]
      exact ih k (by omega)

lemma stepUpTo_stable (m : JSMath) (cfg : Config) (p : ℕ → ℕ) (time : ℚ) (n : ℕ)
    (pre : ℕ → Vec3) (i : ℕ) :
    ∀ j, i ≤ j → ∀ k, k < i → stepUpTo m cfg p time n pre j k
      = stepUpTo m cfg p time n pre i k := by
  intro j
  induction j with
  | zero => intro hij k hk; omega
  | succ j ih =>
      intro hij k hk
      rcases Nat.lt_or_ge i (j + 1) with hlt | _hge
      · rw [stepUpTo_succ]
        simp only [setPos]
        rw [if_neg (by omega)]
        exact ih (by omega) k hk
      · have hij2 : i = j + 1 := by omega
        rw [hij2]

/-- C2 (amended): the in-place second-pass loop is a sequential pass, not
a two-phase snapshot step.  Just before particle `i` is processed, the
positions array holds the pre-step snapshot exactly at the indices
`k ≥ i` not yet written, while every index `k < i` already holds that
particle's final post-step position — so `i`'s force accumulation reads
post-step positions of lower-indexed neighbors and pre-step positions of
higher-indexed ones. -/
theorem updateParticles_sequential_reads (m : JSMath) (cfg : Config) (p : ℕ → ℕ)
    (time : ℚ) (n : ℕ) (pre : ℕ → Vec3) (i : ℕ) (hi : i ≤ n) :
    (∀ k, i ≤ k → stepUpTo m cfg p time n pre i k = pre k) ∧
    (∀ k, k < i → stepUpTo m cfg p time n pre i k
        = updateParticles m cfg p time n pre k) := by
  constructor
  · intro k hk
    exact stepUpTo_high m cfg p time n pre i k hk
  · intro k hk
    have hs := stepUpTo_stable m cfg p time n pre i n hi k hk
    simp only [updateParticles]
    exact hs.symm

/-- Witness for C2's amended statement with the concrete two-particle
configuration: before particle 1 is processed, slot 1 still holds the
pre-step value, and slot 0 already holds its final value. -/
theorem updateParticles_sequential_reads_witness :
    stepUpTo mZero defaultConfig zeroTable 0 2 posPair 1 1 = posPair 1 ∧
    stepUpTo mZero defaultConfig zeroTable 0 2 posPair 1 0
      = updateParticles mZero defaultConfig zeroTable 0 2 posPair 0 :=
  ⟨(updateParticles_sequential_reads mZero defaultConfig zeroTable 0 2 posPair 1
      (by norm_num)).1 1 (le_refl 1),
   (updateParticles_sequential_reads mZero defaultConfig zeroTable 0 2 posPair 1
      (by norm_num)).2 0 (by norm_num)⟩

/-- Counterexample for C2 as stated: with the concrete `Math` record
`mZero`, the source's configuration values, table `zeroTable`, time 0 and
the two particles of `posPair`, the in-place update of particle 1 reads
particle 0's already-updated position (distance 13/50 instead of 1/4), so
its final x coordinate is 649/2500, while the two-phase snapshot step
yields 650/2500. -/
lemma Vec3.add_def (a b : Vec3) : a + b = ⟨a.x + b.x, a.y + b.y, a.z + b.z⟩ := rfl

lemma range_two : List.range 2 = [0, 1] := rfl

lemma qcand0 : queryCandidates 1 2 posPair 0 ⟨0, 0, 0⟩ = [1] := by
  norm_num [queryCandidates, neighborOffsets, bucket, cellOf, posPair, range_two,
    List.flatMap_cons, List.flatMap_nil, List.filter, Prod.mk.injEq]

lemma qcand1 : queryCandidates 1 2 posPair 1 ⟨1/4, 0, 0⟩ = [0] := by
  norm_num [queryCandidates, neighborOffsets, bucket, cellOf, posPair, range_two,
    List.flatMap_cons, List.flatMap_nil, List.filter, Prod.mk.injEq]

lemma updZero : updateOne mZero defaultConfig zeroTable 0 2 posPair posPair 0
    = ⟨-1/100, 0, 0⟩ := by
  norm_num [updateOne, accumRepulsion, repulsionContribution, flowVelocity,
    cylinderForceVec, mZero, defaultConfig, posPair, wrapCoord, setPos,
    Vec3.add_def, qcand0]

lemma updSeqOne :
    updateOne mZero defaultConfig zeroTable 0 2 posPair
      (setPos posPair 0 ⟨-1/100, 0, 0⟩) 1 = ⟨649/2500, 0, 0⟩ := by
  norm_num [updateOne, accumRepulsion, repulsionContribution, flowVelocity,
    cylinderForceVec, mZero, defaultConfig, posPair, wrapCoord, setPos,
    Vec3.add_def, qcand1]

lemma updSnapOne :
    updateOne mZero defaultConfig zeroTable 0 2 posPair posPair 1
      = ⟨13/50, 0, 0⟩ := by
  norm_num [updateOne, accumRepulsion, repulsionContribution, flowVelocity,
    cylinderForceVec, mZero, defaultConfig, posPair, wrapCoord, setPos,
    Vec3.add_def, qcand1]

/-- Counterexample for C2 as stated: with the concrete `Math` record
`mZero`, the source's configuration values, table `zeroTable`, time 0 and
the two particles of `posPair`, the in-place update of particle 1 reads
particle 0's already-updated position (distance 13/50 instead of 1/4), so
its final x coordinate is 649/2500, while the two-phase snapshot step
yields 13/50 = 650/2500. -/
theorem updateParticles_ne_snapshot :
    (updateParticles mZero defaultConfig zeroTable 0 2 posPair 1).x
      ≠ (updateParticlesSnapshot mZero defaultConfig zeroTable 0 2 posPair 1).x := by
  have h1 : stepUpTo mZero defaultConfig zeroTable 0 2 posPair 1
      = setPos posPair 0 ⟨-1/100, 0, 0⟩ := by
    rw [show (1 : ℕ) = 0 + 1 from rfl, stepUpTo_succ, stepUpTo_zero, updZero]
  have h2 : updateParticles mZero defaultConfig zeroTable 0 2 posPair 1
      = ⟨649/2500, 0, 0⟩ := by
    simp only [updateParticles]
    rw [show (2 : ℕ) = 1 + 1 from rfl, stepUpTo_succ, h1, updSeqOne]
    simp [setPos]
  have h3 : updateParticlesSnapshot mZero defaultConfig zeroTable 0 2 posPair 1
      = ⟨13/50, 0, 0⟩ := by
    simp only [updateParticlesSnapshot]
    norm_num [updSnapOne]
  rw [h2, h3]
  norm_num

end FlowField3D
